import Mathlib

/-!
Shallow embedding of the `consistent` package (consistent hashing with bounded
loads, file `consistent.go`).

Modelling conventions:
* Go byte slices are `List Nat` (one entry per byte); ASCII strings are
  rendered with `Char.toNat`, matching `[]byte(s)` for the ASCII names used
  throughout the package and its tests.
* A `Hasher` (interface with `Sum64([]byte) uint64`) is a function
  `List Nat → Nat`.
* Go maps are association lists `List (K × V)` with "replace the first
  matching key, else append" insertion; this is extensionally the Go map
  (unordered, one value per key).  Lookup is first match.
* The `float64` arithmetic of `MaximumLoad` is modelled exactly: the ceiling
  `ceil(partition/len(bins) * loadBalancingParameter)` is an integer, the
  accumulated load `float64(len(...))` is an integer, and Go's `load+1 <= maxLoad`
  compares two exactly representable integers, so the model compares over `ℤ`.
  `MaximumLoadZ` computes the exact ceiling through `Int.ediv`
  (`MaximumLoadZ_eq` relates it to the textbook `Int.ceil` formula).
  When `len(bins) = 0` Go's division yields `+Inf` (or `NaN` when the
  partition count is also `0`); no call path of the package reaches the load
  comparison with an empty bin table, and every generic theorem below that
  involves the comparison assumes a nonempty bin table.
* Go `int` fields are `Int`; the `uint64(cfg.Partition)` conversion is
  `(· % 2 ^ 64).toNat`.
* Fallible methods that in Go may return an `error` after mutating their
  receiver are modelled as `Consistent → ... → Consistent × Option Err`,
  returning the (possibly partially mutated) state together with the error.
-/

/-- Bytes of an ASCII Go string (`[]byte(s)`). -/
def strBytes (s : String) : List Nat := s.data.map Char.toNat

/-- The 8 little-endian bytes `binary.LittleEndian.PutUint64` writes for `n`. -/
def le8 (n : Nat) : List Nat :=
  [n % 256, n / 256 % 256, n / 256 ^ 2 % 256, n / 256 ^ 3 % 256,
   n / 256 ^ 4 % 256, n / 256 ^ 5 % 256, n / 256 ^ 6 % 256, n / 256 ^ 7 % 256]

/-- The `Hasher` capability: `Sum64(data []byte) uint64`. -/
abbrev Hasher := List Nat → Nat

/-- Go struct `Bin` (bin.go): `Name string; PartitionIDs []PartitionID`.  The
`PartitionIDs` field is never written by the package but is part of the
struct, hence of value equality. -/
structure Bin where
  name : String
  partitionIDs : List Nat
deriving DecidableEq

/-- Constructor `NewBin` (bin.go): a bin with the given name and zero-value id slice. -/
def NewBin (name : String) : Bin := ⟨name, []⟩

/-- The sentinel errors of errors.go. -/
inductive Err where
  | ErrInsufficientBins
  | ErrBallNotFound
  | ErrBinNotFound
  | ErrBinAlreadyExist
  | ErrInsufficientPartitionCapacity
deriving DecidableEq

deriving instance DecidableEq for Except

/-- First-match lookup in an association list (Go map indexing). -/
def amLookup {K V : Type} [DecidableEq K] (k : K) : List (K × V) → Option V
  | [] => none
  | (k₂, v₂) :: t => if k = k₂ then some v₂ else amLookup k t

/-- Go map store `m[k] = v`: replace the first entry with key `k`, else
append a fresh entry. -/
def amInsert {K V : Type} [DecidableEq K] (k : K) (v : V) : List (K × V) → List (K × V)
  | [] => [(k, v)]
  | (k₂, v₂) :: t => if k = k₂ then (k, v) :: t else (k₂, v₂) :: amInsert k v t

/-- Go map `delete(m, k)`: drop the first entry with key `k`. -/
def amErase {K V : Type} [DecidableEq K] (k : K) : List (K × V) → List (K × V)
  | [] => []
  | (k₂, v₂) :: t => if k = k₂ then t else (k₂, v₂) :: amErase k t

/-- Go line `loads[bin.String()] = append(loads[bin.String()], partID)`:
read (a missing key yields the empty slice), append, store. -/
def amAppend {K : Type} [DecidableEq K] (k : K) (v : Nat) (l : List (K × List Nat)) :
    List (K × List Nat) :=
  amInsert k (((amLookup k l).getD []) ++ [v]) l

/-- Go struct `Config` (consistent.go lines 14-33). -/
structure Config where
  hasher : Hasher
  partition : Int
  replicationFactor : Int
  loadBalancingParameter : ℚ

/-- Go struct `Consistent` (consistent.go lines 35-61).  The `sync.RWMutex` has no
observable content and is omitted; every modelled operation corresponds to
one critical section. -/
structure Consistent where
  hasher : Hasher
  partition : Nat
  replicationFactor : Int
  loadBalancingParameter : ℚ
  /-- `loads map[string][]PartitionID` -/
  loads : List (String × List Nat)
  /-- `bins map[string]*Bin` -/
  bins : List (String × Bin)
  /-- `balls map[PartitionID]Ball`; a `Ball` is identified by its `String()`. -/
  balls : List (Nat × String)
  /-- `partitions map[PartitionID]*Bin` -/
  partitions : List (Nat × Bin)
  /-- `ring map[uint64]*Bin` -/
  ring : List (Nat × Bin)
  /-- `sortedSet []uint64` -/
  sortedSet : List Nat

/-- The virtual-node label `fmt.Sprintf("%d%s", i, bin.String())` used by
`add` (consistent.go line 106). -/
def addLabel (i : Nat) (name : String) : List Nat := strBytes (toString i ++ name)

/-- The label `fmt.Sprintf("%s%d", bin.String(), i)` used by `Remove`
(consistent.go line 329).  Note the reversed order of the two verbs. -/
def removeLabel (name : String) (i : Nat) : List Nat := strBytes (name ++ toString i)

/-- Method `add` (consistent.go lines 103-117): hash `replicationFactor` labels,
store each in the ring, append each to `sortedSet`, sort ascending, record
the bin.  Appending all hashes and sorting once equals Go's append-per-`i`
followed by one sort. -/
def Consistent.add (c : Consistent) (bin : Bin) : Consistent :=
  let hs := (List.range c.replicationFactor.toNat).map fun i => c.hasher (addLabel i bin.name)
  { c with
    ring := hs.foldl (fun r h => amInsert h bin r) c.ring
    sortedSet := List.insertionSort (· ≤ ·) (c.sortedSet ++ hs)
    bins := amInsert bin.name bin c.bins }

/-- The exact integer value of `MaximumLoad` (consistent.go lines 298-302):
`⌈(partition * α.num) / (len(bins) * α.den)⌉` computed with floor division
(`ceil(x) = -floor(-x)`); `MaximumLoadZ_eq` below shows it equals
`⌈partition / len(bins) * α⌉` whenever `bins` is nonempty. -/
def MaximumLoadZ (c : Consistent) : ℤ :=
  -((-((c.partition : ℤ) * c.loadBalancingParameter.num)).ediv
      ((c.bins.length * c.loadBalancingParameter.den : ℕ) : ℤ))

/-- Method `MaximumLoad` (consistent.go lines 298-302), the exposed value. -/
def MaximumLoad (c : Consistent) : ℚ := (MaximumLoadZ c : ℚ)

/-- Method `distributeWithLoad` (consistent.go lines 180-202).  The Go loop keeps a
counter `count` starting at `0`, increments it at the top of each iteration
and fails when `count >= len(c.sortedSet)`; with `fuel` initialised to
`len(c.sortedSet)` this is fuel `≤ 1` at the top of an iteration, so the
walk examines at most `len(c.sortedSet) - 1` positions.  `maxLoad` is
`c.MaximumLoad()` computed on entry, an integer (see the module comment).
A ring key that is absent would dereference a nil pointer in Go; the model
returns `NewBin ""` there (no modelled call path reaches it). -/
def distributeWithLoad (c : Consistent) (maxLoad : ℤ) (partID : Nat) :
    Nat → Nat → List (Nat × Bin) → List (String × List Nat) →
    Except Err (List (Nat × Bin) × List (String × List Nat))
  | 0, _, _, _ => .error .ErrInsufficientPartitionCapacity
  | 1, _, _, _ => .error .ErrInsufficientPartitionCapacity
  | fuel + 2, idx, partitions, loads =>
    let i := c.sortedSet.getD idx 0
    let bin := (amLookup i c.ring).getD (NewBin "")
    let load : Nat := ((amLookup bin.name loads).getD []).length
    if (load : ℤ) + 1 ≤ maxLoad then
      .ok (amInsert partID bin partitions, amAppend bin.name partID loads)
    else
      distributeWithLoad c maxLoad partID (fuel + 1)
        (if idx + 1 ≥ c.sortedSet.length then 0 else idx + 1) partitions loads

/-- The per-partition loop of `distributePartitions` (consistent.go lines
160-173), iterating `partID` upward with `remaining` iterations left.
`sort.Search` over the ascending `sortedSet` is the first index whose
position is `≥ key` (`List.findIdx`, which is the list's length when no
position qualifies, exactly as `sort.Search` returns `len`). -/
def distLoop (c : Consistent) (maxLoad : ℤ) :
    Nat → Nat → List (Nat × Bin) → List (String × List Nat) →
    Except Err (List (Nat × Bin) × List (String × List Nat))
  | _, 0, partitions, loads => .ok (partitions, loads)
  | partID, remaining + 1, partitions, loads =>
    let key := c.hasher (le8 partID)
    let idx0 := c.sortedSet.findIdx fun x => decide (key ≤ x)
    let idx := if idx0 ≥ c.sortedSet.length then 0 else idx0
    match distributeWithLoad c maxLoad partID c.sortedSet.length idx partitions loads with
    | .error e => .error e
    | .ok (partitions', loads') => distLoop c maxLoad partID.succ remaining partitions' loads'

/-- The fresh load table `distributePartitions` starts from (consistent.go
lines 154-157): one empty slice per tracked bin. -/
def loadsInit (c : Consistent) : List (String × List Nat) :=
  c.bins.map fun p => (p.1, ([] : List Nat))

/-- The pure computation of `distributePartitions` (consistent.go lines
152-178): the fresh `partitions` and `loads` tables, or the error. -/
def distributeTables (c : Consistent) :
    Except Err (List (Nat × Bin) × List (String × List Nat)) :=
  distLoop c (MaximumLoadZ c) 0 c.partition [] (loadsInit c)

/-- Method `distributePartitions` at state level: install the fresh tables only on
success (on error the receiver's tables are untouched). -/
def distributePartitions (c : Consistent) : Consistent × Option Err :=
  match distributeTables c with
  | .error e => (c, some e)
  | .ok (p, l) => ({ c with partitions := p, loads := l }, none)

/-- Method `FindPartitionID` (consistent.go lines 204-208): `Sum64(key) % partition`.
(Go panics on `partition = 0`; `Nat` `%` then returns the hash itself.) -/
def FindPartitionID (c : Consistent) (key : List Nat) : Nat :=
  c.hasher key % c.partition

/-- The `newBalls` table that `relocate` (consistent.go lines 304-316)
builds from the tracked balls. -/
def relocateNewBalls (c : Consistent) : List (Nat × List String) :=
  c.balls.foldl
    (fun nb pb => amInsert (FindPartitionID c (strBytes pb.2))
      (((amLookup (FindPartitionID c (strBytes pb.2)) nb).getD []) ++ [pb.2]) nb)
    []

/-- Method `relocate` (consistent.go lines 304-316): the computed `newBalls` map is
never assigned to any field, so the state is returned unchanged. -/
def relocate (c : Consistent) : Consistent :=
  let _ := relocateNewBalls c
  c

/-- Method `Add` (consistent.go lines 85-101).  Note the receiver is mutated by
`c.add(bin)` before `distributePartitions` runs, so a distribution failure
returns the already-mutated state. -/
def Consistent.Add (c : Consistent) (bin : Bin) : Consistent × Option Err :=
  if (amLookup bin.name c.bins).isSome then (c, some .ErrBinAlreadyExist)
  else
    let c1 := c.add bin
    match distributeTables c1 with
    | .error e => (c1, some e)
    | .ok (p, l) => (relocate { c1 with partitions := p, loads := l }, none)

/-- Method `delSlice` (consistent.go lines 119-126): remove the first occurrence of
`val` from the slice. -/
def delSlice : List Nat → Nat → List Nat
  | [], _ => []
  | x :: t, v => if x = v then t else x :: delSlice t v

/-- Method `Remove` (consistent.go lines 318-341).  The labels are
`fmt.Sprintf("%s%d", ...)`, not `add`'s `fmt.Sprintf("%d%s", ...)`; on an
empty residual bin table only the partition table is reset. -/
def Consistent.Remove (c : Consistent) (bin : Bin) : Consistent × Option Err :=
  if (amLookup bin.name c.bins).isNone then (c, none)
  else
    let hs := (List.range c.replicationFactor.toNat).map fun i =>
      c.hasher (removeLabel bin.name i)
    let c1 := hs.foldl
      (fun st h => { st with ring := amErase h st.ring, sortedSet := delSlice st.sortedSet h }) c
    let c2 := { c1 with bins := amErase bin.name c1.bins }
    if c2.bins.isEmpty then ({ c2 with partitions := [] }, none)
    else
      match distributeTables c2 with
      | .error e => (c2, some e)
      | .ok (p, l) => ({ c2 with partitions := p, loads := l }, none)

/-- The zero state `New` (consistent.go lines 63-83) builds before adding
the initial bins: empty tables, configuration copied (with the
`uint64(cfg.Partition)` conversion). -/
def initC (cfg : Config) : Consistent where
  hasher := cfg.hasher
  partition := (cfg.partition % (2 ^ 64 : Int)).toNat
  replicationFactor := cfg.replicationFactor
  loadBalancingParameter := cfg.loadBalancingParameter
  loads := []
  bins := []
  balls := []
  partitions := []
  ring := []
  sortedSet := []

/-- Function `New` (consistent.go lines 63-83): add every initial bin, then run the
distribution pass only when the bin slice is non-nil (`bins != nil`); the
`Option` distinguishes a nil slice (`none`) from an empty one (`some []`). -/
def New (cfg : Config) (bins : Option (List Bin)) : Except Err Consistent :=
  let c := (bins.getD []).foldl Consistent.add (initC cfg)
  match bins with
  | none => .ok c
  | some _ =>
    match distributeTables c with
    | .error e => .error e
    | .ok (p, l) => .ok { c with partitions := p, loads := l }

/-! ### Concrete instances used by witnesses and counterexamples -/

/-- A concrete deterministic hasher: the byte string read as a base-256
number (injective on the ASCII labels used below). -/
def hBytes : Hasher := fun bs => bs.foldl (fun a b => a * 256 + b) 0

/-- A concrete constant (maximally colliding) hasher. -/
def hConst : Hasher := fun _ => 0

/-- One partition, two replicas per bin, load-balancing parameter 1. -/
def cfgT : Config := ⟨hBytes, 1, 2, 1⟩

/-- One partition, one replica per bin, load-balancing parameter 1. -/
def cfgC4 : Config := ⟨hBytes, 1, 1, 1⟩

/-- Zero partitions (distribution is trivially empty), one replica. -/
def cfgC5 : Config := ⟨hBytes, 0, 1, 1⟩

/-- The "0 partition" configuration of the repository's `TestNew` table. -/
def cfgNoPartition : Config := ⟨hBytes, 0, 10, mkRat 6 5⟩

/-- The "negative replication factor" configuration of `TestNew`. -/
def cfgNegReplication : Config := ⟨hBytes, 20, -1, mkRat 6 5⟩

/-- The "0 load balancing parameter" configuration of `TestNew`. -/
def cfgZeroAlpha : Config := ⟨hBytes, 20, 10, 0⟩

/-- The state produced by `New(cfgT, [NewBin "a"])` (a defined value, its
shape is certified inside `C7_counterexample`). -/
def c7 : Consistent := ((New cfgT (some [NewBin "a"])).toOption).getD (initC cfgT)

/-- The single-ring-position state reached inside `New(cfgC4, [NewBin "a"])`
just before its distribution pass runs. -/
def c3 : Consistent := (initC cfgC4).add (NewBin "a")


/-- The repository test suite's default shape: 23 partitions, 21 replicas. -/
def cfgW : Config := ⟨hBytes, 23, 21, 1⟩

/-- A maximally colliding configuration: every label hashes to position 0,
replication factor 2 so that single-bin distribution can succeed. -/
def cfgC8 : Config := ⟨hConst, 1, 2, 1⟩

/-- The bin owning ring index `j` (consistent.go lines 189-190). -/
def binAt (c : Consistent) (j : Nat) : Bin :=
  (amLookup (c.sortedSet.getD j 0) c.ring).getD (NewBin "")

/-- The accumulated load of `b` in the scratch load table. -/
def loadLen (ls : List (String × List Nat)) (b : Bin) : Nat :=
  ((amLookup b.name ls).getD []).length

/-- Ring index `j` holds an eligible bin: admitting one more partition keeps
it within `maxLoad` (Go's `load+1 <= maxLoad`; as `maxLoad` is an integer
this is exactly "load strictly below MaximumLoad"). -/
def eligible (c : Consistent) (ml : ℤ) (ls : List (String × List Nat)) (j : Nat) : Prop :=
  (loadLen ls (binAt c j) : ℤ) + 1 ≤ ml

instance (c : Consistent) (ml : ℤ) (ls : List (String × List Nat)) (j : Nat) :
    Decidable (eligible c ml ls j) :=
  inferInstanceAs (Decidable ((loadLen ls (binAt c j) : ℤ) + 1 ≤ ml))

/-- All partition ids sitting in a load table, in table order. -/
def allAssigned (l : List (String × List Nat)) : List Nat :=
  (l.map Prod.snd).flatten

/-- Extensional (Go map) equality of load tables. -/
def loadsExt (l₁ l₂ : List (String × List Nat)) : Prop :=
  ∀ k, amLookup k l₁ = amLookup k l₂

/-- Result relation for the distribution computations: same error, or equal
partition tables and extensionally equal load tables. -/
def distRel : Except Err (List (Nat × Bin) × List (String × List Nat)) →
    Except Err (List (Nat × Bin) × List (String × List Nat)) → Prop
  | .error e₁, .error e₂ => e₁ = e₂
  | .ok (p₁, l₁), .ok (p₂, l₂) => p₁ = p₂ ∧ loadsExt l₁ l₂
  | _, _ => False

/-- The `(position, bin)` pairs `add` inserts for one bin. -/
def binPairs (rf : Int) (hh : Hasher) (b : Bin) : List (Nat × Bin) :=
  (List.range rf.toNat).map fun i => (hh (addLabel i b.name), b)

/-- The `(position, bin)` pairs a whole `Add` sequence inserts, in order. -/
def allPairs (rf : Int) (hh : Hasher) (bs : List Bin) : List (Nat × Bin) :=
  (bs.map (binPairs rf hh)).flatten

/-- The per-name injectivity of the generated ring positions over a bin
set: distinct (replica index, bin) pairs get distinct positions. -/
def DistinctPositions (rf : Int) (hh : Hasher) (bs : List Bin) : Prop :=
  ∀ b₁ ∈ bs, ∀ b₂ ∈ bs, ∀ i₁ < rf.toNat, ∀ i₂ < rf.toNat,
    hh (addLabel i₁ b₁.name) = hh (addLabel i₂ b₂.name) → i₁ = i₂ ∧ b₁ = b₂

instance (rf : Int) (hh : Hasher) (bs : List Bin) : Decidable (DistinctPositions rf hh bs) :=
  inferInstanceAs (Decidable (∀ b₁ ∈ bs, ∀ b₂ ∈ bs, ∀ i₁ < rf.toNat, ∀ i₂ < rf.toNat,
    hh (addLabel i₁ b₁.name) = hh (addLabel i₂ b₂.name) → i₁ = i₂ ∧ b₁ = b₂))

/-- Run a sequence of `Add` calls; `none` when any call returns an error. -/
def addAll (c : Consistent) : List Bin → Option Consistent
  | [] => some c
  | b :: t =>
    match c.Add b with
    | (c', none) => addAll c' t
    | (_, some _) => none

/-- State reached by adding bins "a" then "b" to a fresh `cfgT` structure. -/
def cA : Consistent :=
  (addAll (initC cfgT) [NewBin "a", NewBin "b"]).getD (initC cfgT)

/-- State reached by adding bins "b" then "a" to a fresh `cfgT` structure. -/
def cB : Consistent :=
  (addAll (initC cfgT) [NewBin "b", NewBin "a"]).getD (initC cfgT)

/-! ### Association-list (Go map) lemmas -/

theorem amLookup_amInsert_self {K V : Type} [DecidableEq K] (k : K) (v : V)
    (l : List (K × V)) : amLookup k (amInsert k v l) = some v := by
  induction l with
  | nil => simp [amInsert, amLookup]
  | cons h t ih =>
    obtain ⟨k₂, v₂⟩ := h
    by_cases hk : k = k₂ <;> simp [amInsert, amLookup, hk, ih]

theorem amLookup_amInsert_ne {K V : Type} [DecidableEq K] {k' k : K} (v : V)
    (l : List (K × V)) (h : k' ≠ k) :
    amLookup k' (amInsert k v l) = amLookup k' l := by
  induction l with
  | nil => simp [amInsert, amLookup, h]
  | cons hd t ih =>
    obtain ⟨k₂, v₂⟩ := hd
    by_cases hk : k = k₂
    · subst hk
      simp [amInsert, amLookup, h]
    · by_cases hk' : k' = k₂ <;> simp [amInsert, amLookup, hk, hk', ih]

theorem mem_amInsert {K V : Type} [DecidableEq K] {p : K × V} {k : K} {v : V}
    {l : List (K × V)} (h : p ∈ amInsert k v l) : p = (k, v) ∨ p ∈ l := by
  induction l with
  | nil => simpa [amInsert] using h
  | cons hd t ih =>
    obtain ⟨k₂, v₂⟩ := hd
    by_cases hk : k = k₂
    · subst hk
      simp [amInsert] at h
      rcases h with h | h
      · exact Or.inl (by simp [h])
      · exact Or.inr (by simp [h])
    · simp [amInsert, hk] at h
      rcases h with h | h
      · exact Or.inr (by simp [h])
      · rcases ih h with h' | h'
        · exact Or.inl h'
        · exact Or.inr (by simp [h'])

/-! ### Arithmetic bridge for `MaximumLoad` -/

/-- Lemma: `MaximumLoadZ` is the exact ceiling of the spec's formula
`(partitionCount / binCount) * loadBalancingParameter` whenever at least one
bin is tracked. -/
theorem MaximumLoadZ_eq (c : Consistent) (h : c.bins.length ≠ 0) :
    MaximumLoadZ c
      = ⌈(c.partition : ℚ) / (c.bins.length : ℚ) * c.loadBalancingParameter⌉ := by
  have hd0 : (c.loadBalancingParameter.den : ℚ) ≠ 0 := by
    exact_mod_cast c.loadBalancingParameter.den_nz
  have hn0 : ((c.bins.length : ℚ)) ≠ 0 := by exact_mod_cast h
  have hA : (c.partition : ℚ) / (c.bins.length : ℚ) * c.loadBalancingParameter
      = (((c.partition : ℤ) * c.loadBalancingParameter.num : ℤ) : ℚ)
        / (((c.bins.length * c.loadBalancingParameter.den : ℕ) : ℕ) : ℚ) := by
    conv_lhs => rw [← Rat.num_div_den c.loadBalancingParameter]
    push_cast
    field_simp
  have hceil : ∀ q : ℚ, ⌈q⌉ = -⌊-q⌋ := fun q => by rw [Int.floor_neg, neg_neg]
  rw [hA, hceil, ← neg_div, ← Int.cast_neg, Rat.floor_intCast_div_natCast]
  rfl

/-! ### Small structural lemmas about the operations -/

/-- Method `add` only touches `ring`, `sortedSet` and `bins`. -/
theorem add_fields (c : Consistent) (b : Bin) :
    (c.add b).partitions = c.partitions ∧ (c.add b).loads = c.loads ∧
    (c.add b).balls = c.balls ∧ (c.add b).partition = c.partition ∧
    (c.add b).replicationFactor = c.replicationFactor ∧
    (c.add b).loadBalancingParameter = c.loadBalancingParameter := by
  exact ⟨rfl, rfl, rfl, rfl, rfl, rfl⟩

/-- The ring/sortedSet deletion fold inside `Remove` only touches `ring` and
`sortedSet`. -/
theorem removeFold_fields (hs : List Nat) (c : Consistent) :
    (hs.foldl (fun st h =>
        { st with ring := amErase h st.ring, sortedSet := delSlice st.sortedSet h }) c).bins
        = c.bins ∧
    (hs.foldl (fun st h =>
        { st with ring := amErase h st.ring, sortedSet := delSlice st.sortedSet h }) c).loads
        = c.loads ∧
    (hs.foldl (fun st h =>
        { st with ring := amErase h st.ring, sortedSet := delSlice st.sortedSet h }) c).balls
        = c.balls := by
  induction hs generalizing c with
  | nil => exact ⟨rfl, rfl, rfl⟩
  | cons h t ih => simpa using ih _

/-- Walk `distributeWithLoad` only ever fails with `ErrInsufficientPartitionCapacity`. -/
theorem distributeWithLoad_error (c : Consistent) (ml : ℤ) (pid : Nat) :
    ∀ fuel idx ps ls e, distributeWithLoad c ml pid fuel idx ps ls = .error e →
      e = .ErrInsufficientPartitionCapacity := by
  intro fuel
  induction fuel using Nat.strong_induction_on with
  | _ fuel ih =>
    intro idx ps ls e h
    match fuel with
    | 0 =>
      rw [distributeWithLoad] at h
      injection h with h2
      exact h2.symm
    | 1 =>
      rw [distributeWithLoad] at h
      injection h with h2
      exact h2.symm
    | fuel + 2 =>
      rw [distributeWithLoad] at h
      split at h
      · simp at h
      · exact ih (fuel + 1) (by omega) _ _ _ _ h

/-- Loop `distLoop` only ever fails with `ErrInsufficientPartitionCapacity`. -/
theorem distLoop_error (c : Consistent) (ml : ℤ) :
    ∀ r pid ps ls e, distLoop c ml pid r ps ls = .error e →
      e = .ErrInsufficientPartitionCapacity := by
  intro r
  induction r with
  | zero => intro pid ps ls e h; simp [distLoop] at h
  | succ r ih =>
    intro pid ps ls e h
    rw [distLoop] at h
    split at h
    · rename_i heq
      cases h
      exact distributeWithLoad_error _ _ _ _ _ _ _ _ heq
    · exact ih _ _ _ _ h

/-! ### Claim C6 -/

/-- C6: the claim says `New` rejects a configuration whose partition count,
replication factor or load-balancing parameter is not positive.  The code
performs no validation at all: with a nil initial bin slice it accepts all
three invalid configurations of the repository's own `TestNew` table
(which expects each of them to fail). -/
theorem C6_new_accepts_invalid_configs :
    New cfgNoPartition none = .ok (initC cfgNoPartition) ∧
    New cfgNegReplication none = .ok (initC cfgNegReplication) ∧
    New cfgZeroAlpha none = .ok (initC cfgZeroAlpha) :=
  ⟨rfl, rfl, rfl⟩

/-! ### Claim C10 -/

/-- C10: `New` with a nil bin slice succeeds with the empty structure; `New`
with a non-nil empty bin slice runs the distribution pass over zero bins and
fails with `ErrInsufficientPartitionCapacity` whenever the partition count
is positive (any positive Go `int` partition count). -/
theorem C10_nil_vs_empty_bins (cfg : Config) (h1 : 0 < cfg.partition)
    (h2 : cfg.partition < 2 ^ 63) :
    New cfg none = .ok (initC cfg) ∧ (initC cfg).bins = [] ∧
    (initC cfg).ring = [] ∧ (initC cfg).partitions = [] ∧
    New cfg (some []) = .error .ErrInsufficientPartitionCapacity := by
  refine ⟨rfl, rfl, rfl, rfl, ?_⟩
  have hmod : cfg.partition % (2 ^ 64 : Int) = cfg.partition :=
    Int.emod_eq_of_lt h1.le (by omega)
  have hp : 0 < (initC cfg).partition := by
    simp only [initC, hmod]
    omega
  obtain ⟨r, hr⟩ := Nat.exists_eq_succ_of_ne_zero hp.ne'
  have hdt : distributeTables (initC cfg) = .error .ErrInsufficientPartitionCapacity := by
    rw [distributeTables, hr, distLoop]
    rfl
  unfold New
  simp only [Option.getD_some, List.foldl_nil, hdt]

/-- Witness for C10 at a concrete configuration. -/
theorem C10_nil_vs_empty_bins_witness :
    (0 : Int) < cfgW.partition ∧ cfgW.partition < 2 ^ 63 ∧
    (New cfgW none = .ok (initC cfgW) ∧
     (initC cfgW).bins = [] ∧
     (initC cfgW).ring = [] ∧
     (initC cfgW).partitions = [] ∧
     New cfgW (some []) = .error .ErrInsufficientPartitionCapacity) :=
  ⟨by decide, by decide, C10_nil_vs_empty_bins cfgW (by decide) (by decide)⟩

/-! ### Claim C9 -/

/-- C9: a successful `Add` leaves the ball registry exactly unchanged (and
the partition count, against which `relocate` re-derives partition ids, is
also unchanged): `relocate` computes `newBalls` and discards it. -/
theorem C9_add_preserves_balls (c : Consistent) (bin : Bin)
    (h : (c.Add bin).2 = none) :
    (c.Add bin).1.balls = c.balls ∧ (c.Add bin).1.partition = c.partition := by
  unfold Consistent.Add at *
  by_cases hb : (amLookup bin.name c.bins).isSome
  · simp [hb] at h
  · simp only [hb, if_false, Bool.false_eq_true] at *
    rcases hd : distributeTables (c.add bin) with e | pl
    · simp [hd] at h
    · obtain ⟨p, l⟩ := pl
      simp only [hd, relocate]
      exact ⟨rfl, rfl⟩

/-- Witness for C9: a concrete successful `Add`. -/
theorem C9_add_preserves_balls_witness :
    ((initC cfgT).Add (NewBin "a")).2 = none ∧
    ((initC cfgT).Add (NewBin "a")).1.balls = (initC cfgT).balls ∧
    ((initC cfgT).Add (NewBin "a")).1.partition = (initC cfgT).partition := by
  refine ⟨by decide, ?_, ?_⟩
  · exact (C9_add_preserves_balls _ _ (by decide)).1
  · exact (C9_add_preserves_balls _ _ (by decide)).2

/-! ### Claim C4 -/

/-- C4 as stated is false: `Add` mutates the receiver through `c.add(bin)`
before running the distribution pass, so when that pass fails the bin
registry (and ring and sorted set) already contain the new bin.  Concretely,
with one partition and replication factor 1 the pass always fails, yet the
bin registry is mutated. -/
theorem C4_counterexample :
    ((initC cfgC4).Add (NewBin "a")).2 = some Err.ErrInsufficientPartitionCapacity ∧
    ((initC cfgC4).Add (NewBin "a")).1.bins ≠ (initC cfgC4).bins ∧
    ((initC cfgC4).Add (NewBin "a")).1.sortedSet ≠ (initC cfgC4).sortedSet := by
  refine ⟨by decide, by decide, by decide⟩

/-- C4 amended: a failed `Add` leaves the partition table, load table and
ball registry unchanged; on `ErrBinAlreadyExist` the whole state is
unchanged, and on a distribution failure the state is exactly the prior
state with the bin inserted (ring, sorted set, bin registry mutated). -/
theorem C4_amended (c : Consistent) (bin : Bin) (e : Err)
    (h : (c.Add bin).2 = some e) :
    (c.Add bin).1.partitions = c.partitions ∧ (c.Add bin).1.loads = c.loads ∧
    (c.Add bin).1.balls = c.balls ∧
    (e = .ErrBinAlreadyExist → (c.Add bin).1 = c) ∧
    (e ≠ .ErrBinAlreadyExist → (c.Add bin).1 = c.add bin) := by
  by_cases hb : (amLookup bin.name c.bins).isSome
  · have hAdd : c.Add bin = (c, some .ErrBinAlreadyExist) := by
      unfold Consistent.Add
      rw [if_pos hb]
    rw [hAdd] at h ⊢
    simp only [Option.some.injEq] at h
    subst h
    exact ⟨rfl, rfl, rfl, fun _ => rfl, fun hne => absurd rfl hne⟩
  · rcases hd : distributeTables (c.add bin) with e' | pl
    · have hAdd : c.Add bin = (c.add bin, some e') := by
        unfold Consistent.Add
        rw [if_neg hb]
        simp only [hd]
      have he : e' = .ErrInsufficientPartitionCapacity := by
        rw [distributeTables] at hd
        exact distLoop_error _ _ _ _ _ _ _ hd
      rw [hAdd] at h ⊢
      simp only [Option.some.injEq] at h
      subst h
      refine ⟨rfl, rfl, rfl, fun habs => ?_, fun _ => rfl⟩
      rw [he] at habs
      exact absurd habs (by decide)
    · obtain ⟨p, l⟩ := pl
      have h2 : (c.Add bin).2 = none := by
        unfold Consistent.Add
        rw [if_neg hb]
        simp only [hd]
      rw [h2] at h
      cases h

/-- Witness for C4 amended at the counterexample input. -/
theorem C4_amended_witness :
    ((initC cfgC4).Add (NewBin "a")).2 = some Err.ErrInsufficientPartitionCapacity ∧
    ((initC cfgC4).Add (NewBin "a")).1.partitions = (initC cfgC4).partitions ∧
    ((initC cfgC4).Add (NewBin "a")).1.loads = (initC cfgC4).loads ∧
    ((initC cfgC4).Add (NewBin "a")).1.balls = (initC cfgC4).balls ∧
    ((initC cfgC4).Add (NewBin "a")).1 = (initC cfgC4).add (NewBin "a") := by
  have h := C4_amended (initC cfgC4) (NewBin "a") .ErrInsufficientPartitionCapacity (by decide)
  exact ⟨by decide, h.1, h.2.1, h.2.2.1, h.2.2.2.2 (by decide)⟩

/-! ### Claim C5 -/

/-- C5: the claim says `Remove` recomputes the same labels `Add` hashed, so
that `Add(b)` then `Remove(b)` leaves no ring position of `b`.  The code
computes `fmt.Sprintf("%d%s", i, name)` in `add` but
`fmt.Sprintf("%s%d", name, i)` in `Remove`; for bin "a" with replication
factor 1 the two labels are "0a" and "a0", which hash differently, so after
`Add` then `Remove` the bin's position is still on the ring and in the
sorted set even though the bin registry is empty. -/
theorem C5_remove_misses_ring_positions :
    hBytes (addLabel 0 "a") = 12385 ∧ hBytes (removeLabel "a" 0) = 24880 ∧
    ((initC cfgC5).Add (NewBin "a")).2 = none ∧
    (((initC cfgC5).Add (NewBin "a")).1.Remove (NewBin "a")).2 = none ∧
    (((initC cfgC5).Add (NewBin "a")).1.Remove (NewBin "a")).1.bins = [] ∧
    (((initC cfgC5).Add (NewBin "a")).1.Remove (NewBin "a")).1.sortedSet = [12385] ∧
    amLookup 12385 ((((initC cfgC5).Add (NewBin "a")).1.Remove (NewBin "a")).1.ring)
      = some (NewBin "a") := by
  refine ⟨by decide, by decide, by decide, by decide, by decide, by decide, by decide⟩

/-! ### Claim C7 -/

/-- C7 as stated is false: removing the last remaining bin returns no error
and resets the partition table, but the load table is left with its stale
contents (`Remove` only resets `c.partitions`). -/
theorem C7_counterexample :
    (New cfgT (some [NewBin "a"])).toOption.map Consistent.bins
      = some [("a", NewBin "a")] ∧
    c7.bins = [("a", NewBin "a")] ∧
    c7.loads = [("a", [0])] ∧
    (c7.Remove (NewBin "a")).2 = none ∧
    (c7.Remove (NewBin "a")).1.partitions = [] ∧
    (c7.Remove (NewBin "a")).1.loads = [("a", [0])] := by
  refine ⟨by decide, by decide, by decide, by decide, by decide, by decide⟩

/-- C7 amended: removing the last remaining tracked bin returns no error and
empties the partition table, while the load table keeps its previous value
unchanged. -/
theorem C7_amended (c : Consistent) (bin : Bin)
    (h1 : (amLookup bin.name c.bins).isSome)
    (h2 : amErase bin.name c.bins = []) :
    (c.Remove bin).2 = none ∧ (c.Remove bin).1.partitions = [] ∧
    (c.Remove bin).1.loads = c.loads := by
  obtain ⟨b0, hb0⟩ := Option.isSome_iff_exists.mp h1
  have hf := removeFold_fields ((List.range c.replicationFactor.toNat).map fun i =>
      c.hasher (removeLabel bin.name i)) c
  simp only [Consistent.Remove, hb0, Option.isNone_some, Bool.false_eq_true, if_false]
  rw [hf.1, h2]
  exact ⟨rfl, rfl, hf.2.1⟩

/-! ### Claim C1 -/

/-- On success the bounded-load walk admits `partID` into exactly one bin
whose accumulated load satisfied the admission bound, leaving the load table
otherwise unchanged. -/
theorem distributeWithLoad_ok (c : Consistent) (ml : ℤ) (pid : Nat) :
    ∀ fuel idx ps ls P L,
      distributeWithLoad c ml pid fuel idx ps ls = .ok (P, L) →
      ∃ b : Bin, ((((amLookup b.name ls).getD []).length : ℤ) + 1 ≤ ml) ∧
        P = amInsert pid b ps ∧ L = amAppend b.name pid ls := by
  intro fuel
  induction fuel using Nat.strong_induction_on with
  | _ fuel ih =>
    intro idx ps ls P L h
    match fuel with
    | 0 => rw [distributeWithLoad] at h; cases h
    | 1 => rw [distributeWithLoad] at h; cases h
    | fuel + 2 =>
      simp only [distributeWithLoad] at h
      split at h
      · rename_i hle
        injection h with h'
        rw [Prod.mk.injEq] at h'
        exact ⟨_, hle, h'.1.symm, h'.2.symm⟩
      · exact ih (fuel + 1) (by omega) _ _ _ _ _ h

/-- Through the per-partition loop, every load-table entry stays bounded by
`ml` provided it was bounded on entry. -/
theorem distLoop_bound (c : Consistent) (ml : ℤ) :
    ∀ r pid ps ls P L,
      distLoop c ml pid r ps ls = .ok (P, L) →
      (∀ nv ∈ ls, ((nv.2.length : ℤ) ≤ ml)) →
      ∀ nv ∈ L, ((nv.2.length : ℤ) ≤ ml) := by
  intro r
  induction r with
  | zero =>
    intro pid ps ls P L h hls
    rw [distLoop] at h
    injection h with h'
    rw [Prod.mk.injEq] at h'
    rw [← h'.2]
    exact hls
  | succ r ih =>
    intro pid ps ls P L h hls
    rw [distLoop] at h
    split at h
    · cases h
    · rename_i ps' ls' heq
      obtain ⟨b, hguard, hP, hL⟩ := distributeWithLoad_ok c ml pid _ _ _ _ _ _ heq
      refine ih _ _ _ _ _ h ?_
      subst hL
      intro nv hmem
      simp only [amAppend] at hmem
      rcases mem_amInsert hmem with h' | h'
      · subst h'
        simp only [List.length_append, List.length_singleton]
        push_cast
        omega
      · exact hls _ h'

/-- C1: after every successful distribution pass over a nonempty bin table
(the situation in all three triggers: `New` with bins, `Add`, `Remove` with
bins remaining), every load-table entry holds at most
`ceil(partitionCount / binCount * loadBalancingParameter)` partitions, with
`binCount` the number of bins at the time of the pass. -/
theorem C1_load_bound (c : Consistent) (hbins : c.bins ≠ [])
    (P : List (Nat × Bin)) (L : List (String × List Nat))
    (h : distributeTables c = .ok (P, L))
    (name : String) (pids : List Nat) (hm : (name, pids) ∈ L) :
    (pids.length : ℚ)
      ≤ ((⌈(c.partition : ℚ) / (c.bins.length : ℚ) * c.loadBalancingParameter⌉ : ℤ) : ℚ) := by
  have hlen : c.bins.length ≠ 0 := by
    simpa [List.length_eq_zero] using hbins
  rw [distributeTables] at h
  rcases hp : c.partition with _ | r
  · rw [hp, distLoop] at h
    injection h with h'
    rw [Prod.mk.injEq] at h'
    rw [← h'.2] at hm
    simp only [loadsInit, List.mem_map] at hm
    obtain ⟨a, _, ha⟩ := hm
    rw [Prod.mk.injEq] at ha
    rw [← ha.2]
    simp [hp]
  · have h0 := h
    rw [hp, distLoop] at h
    split at h
    · cases h
    · rename_i ps' ls' heq
      obtain ⟨b, hguard, _, _⟩ := distributeWithLoad_ok c _ 0 _ _ _ _ _ _ heq
      have hml : 0 ≤ MaximumLoadZ c := by omega
      have hz : (pids.length : ℤ) ≤ MaximumLoadZ c := by
        refine distLoop_bound c _ _ _ _ _ _ _ h0 ?_ (name, pids) hm
        intro nv hmem
        simp only [loadsInit, List.mem_map] at hmem
        obtain ⟨a, _, ha⟩ := hmem
        rw [← ha]
        simpa using hml
      rw [← hp, ← MaximumLoadZ_eq c hlen]
      exact_mod_cast hz

/-- Witness for C1 at a concrete one-bin state whose pass succeeds. -/
theorem C1_load_bound_witness :
    c7.bins ≠ [] ∧
    distributeTables c7 = .ok ([(0, NewBin "a")], [("a", [0])]) ∧
    (("a", ([0] : List Nat))) ∈ [("a", ([0] : List Nat))] ∧
    (([0] : List Nat).length : ℚ)
      ≤ ((⌈(c7.partition : ℚ) / (c7.bins.length : ℚ) * c7.loadBalancingParameter⌉ : ℤ) : ℚ) :=
  ⟨by decide, by decide, by decide,
    C1_load_bound c7 (by decide) [(0, NewBin "a")] [("a", [0])] (by decide) "a" [0] (by decide)⟩

/-! ### Claim C2 -/

/-- Store `amAppend` adds exactly one occurrence of `v` to the assigned multiset. -/
theorem allAssigned_amAppend (k : String) (v : Nat) (l : List (String × List Nat)) :
    (allAssigned (amAppend k v l)).Perm (v :: allAssigned l) := by
  induction l with
  | nil => simp [allAssigned, amAppend, amInsert, amLookup]
  | cons hd t ih =>
    obtain ⟨k₂, vs⟩ := hd
    by_cases hk : k = k₂
    · subst hk
      have hstep : amAppend k v ((k, vs) :: t) = (k, vs ++ [v]) :: t := by
        simp [amAppend, amLookup, amInsert]
      rw [hstep]
      simp only [allAssigned, List.map_cons, List.flatten_cons]
      rw [List.append_assoc]
      exact List.perm_middle
    · have hstep : amAppend k v ((k₂, vs) :: t) = (k₂, vs) :: amAppend k v t := by
        simp [amAppend, amLookup, amInsert, hk]
      rw [hstep]
      simp only [allAssigned, List.map_cons, List.flatten_cons]
      exact (ih.append_left vs).trans List.perm_middle

/-- The fresh load table contributes no assigned partition ids. -/
theorem allAssigned_of_empty_lists : ∀ l : List (String × Bin),
    allAssigned (l.map fun p => (p.1, ([] : List Nat))) = []
  | [] => rfl
  | _ :: t => by simpa using allAssigned_of_empty_lists t

/-- Through the per-partition loop: partition ids outside the processed
window keep their assignment, all `r` freshly processed ids become assigned,
and exactly the processed ids join the load table (once each). -/
theorem distLoop_cover (c : Consistent) (ml : ℤ) :
    ∀ r pid ps ls P L,
      distLoop c ml pid r ps ls = .ok (P, L) →
      (∀ q, q < pid ∨ pid + r ≤ q → amLookup q P = amLookup q ps) ∧
      (∀ q, pid ≤ q → q < pid + r → (amLookup q P).isSome) ∧
      (allAssigned L).Perm (List.range' pid r ++ allAssigned ls) := by
  intro r
  induction r with
  | zero =>
    intro pid ps ls P L h
    rw [distLoop] at h
    injection h with h'
    rw [Prod.mk.injEq] at h'
    obtain ⟨hP, hL⟩ := h'
    subst hP
    subst hL
    exact ⟨fun q _ => rfl, fun q h1 h2 => absurd h2 (by omega), by simp [List.range']⟩
  | succ r ih =>
    intro pid ps ls P L h
    rw [distLoop] at h
    split at h
    · cases h
    · rename_i ps' ls' heq
      obtain ⟨b, _, hP', hL'⟩ := distributeWithLoad_ok c ml pid _ _ _ _ _ _ heq
      obtain ⟨ihPres, ihCov, ihPerm⟩ := ih _ _ _ _ _ h
      subst hP'
      subst hL'
      refine ⟨?_, ?_, ?_⟩
      · intro q hq
        rw [ihPres q (by omega)]
        exact amLookup_amInsert_ne _ _ (by omega)
      · intro q h1 h2
        rcases Nat.eq_or_lt_of_le h1 with hq | hq
        · subst hq
          rw [ihPres pid (by omega), amLookup_amInsert_self]
          rfl
        · exact ihCov q (by omega) (by omega)
      · refine ihPerm.trans ?_
        refine ((allAssigned_amAppend b.name pid ls).append_left _).trans ?_
        refine List.perm_middle.trans ?_
        rw [List.range'_succ, List.cons_append]

/-- C2: after every successful distribution pass with at least one bin, the
partition table assigns every id in `[0, partitionCount)` (a map lookup, so
to exactly one bin), and the per-bin load-table lists jointly contain every
id of `[0, partitionCount)` exactly once: their concatenation is a
permutation of `range partitionCount` — total coverage, no duplicates,
hence pairwise disjoint. -/
theorem C2_total_coverage (c : Consistent) (hbins : c.bins ≠ [])
    (P : List (Nat × Bin)) (L : List (String × List Nat))
    (h : distributeTables c = .ok (P, L)) :
    (∀ q < c.partition, ∃ b, amLookup q P = some b) ∧
    (allAssigned L).Perm (List.range c.partition) := by
  rw [distributeTables] at h
  obtain ⟨hPres, hCov, hPerm⟩ := distLoop_cover c _ _ _ _ _ _ _ h
  constructor
  · intro q hq
    exact Option.isSome_iff_exists.mp (hCov q (Nat.zero_le q) (by omega))
  · have hinit : allAssigned (loadsInit c) = [] := allAssigned_of_empty_lists c.bins
    have := hPerm
    rw [hinit, List.append_nil] at this
    rw [List.range_eq_range']
    exact this

/-- Witness for C2 at a concrete one-bin state whose pass succeeds. -/
theorem C2_total_coverage_witness :
    c7.bins ≠ [] ∧
    distributeTables c7 = .ok ([(0, NewBin "a")], [("a", [0])]) ∧
    ((∀ q < c7.partition, ∃ b, amLookup q [(0, NewBin "a")] = some b) ∧
      (allAssigned [("a", [0])]).Perm (List.range c7.partition)) :=
  ⟨by decide, by decide,
    C2_total_coverage c7 (by decide) [(0, NewBin "a")] [("a", [0])] (by decide)⟩

/-! ### Claim C3 -/

/-- Full characterisation of the bounded-load walk, for any fuel: starting
at index `idx`, it fails exactly when none of the first `fuel - 1` walked
positions (wrapping) holds an eligible bin, and otherwise assigns the
partition to the first eligible bin of the walk. -/
theorem distributeWithLoad_char (c : Consistent) (ml : ℤ) (pid : Nat) :
    ∀ fuel idx ps ls, idx < c.sortedSet.length →
      (distributeWithLoad c ml pid fuel idx ps ls = .error .ErrInsufficientPartitionCapacity
        ↔ ∀ j, j + 1 < fuel → ¬eligible c ml ls ((idx + j) % c.sortedSet.length)) ∧
      (∀ j₀, j₀ + 1 < fuel → eligible c ml ls ((idx + j₀) % c.sortedSet.length) →
        (∀ j < j₀, ¬eligible c ml ls ((idx + j) % c.sortedSet.length)) →
        distributeWithLoad c ml pid fuel idx ps ls
          = .ok (amInsert pid (binAt c ((idx + j₀) % c.sortedSet.length)) ps,
                 amAppend (binAt c ((idx + j₀) % c.sortedSet.length)).name pid ls)) := by
  intro fuel
  induction fuel using Nat.strong_induction_on with
  | _ fuel ih =>
    intro idx ps ls hidx
    match fuel with
    | 0 =>
      exact ⟨iff_of_true rfl (fun j hj => absurd hj (by omega)),
        fun j₀ hj₀ => absurd hj₀ (by omega)⟩
    | 1 =>
      exact ⟨iff_of_true rfl (fun j hj => absurd hj (by omega)),
        fun j₀ hj₀ => absurd hj₀ (by omega)⟩
    | f + 2 =>
      have hstep : distributeWithLoad c ml pid (f + 2) idx ps ls
          = if (loadLen ls (binAt c idx) : ℤ) + 1 ≤ ml then
              .ok (amInsert pid (binAt c idx) ps, amAppend (binAt c idx).name pid ls)
            else
              distributeWithLoad c ml pid (f + 1)
                (if idx + 1 ≥ c.sortedSet.length then 0 else idx + 1) ps ls := rfl
      have hzero : (idx + 0) % c.sortedSet.length = idx := by
        rw [Nat.add_zero, Nat.mod_eq_of_lt hidx]
      by_cases he : eligible c ml ls idx
      · have he' : (loadLen ls (binAt c idx) : ℤ) + 1 ≤ ml := he
        constructor
        · refine iff_of_false ?_ ?_
          · intro herr
            rw [hstep, if_pos he'] at herr
            cases herr
          · intro hall
            have h0 := hall 0 (by omega)
            rw [hzero] at h0
            exact h0 he
        · intro j₀ hj₀ helig hmin
          match j₀ with
          | 0 =>
            rw [hstep, if_pos he', hzero]
          | j₁ + 1 =>
            have h0 := hmin 0 (by omega)
            rw [hzero] at h0
            exact absurd he h0
      · have he' : ¬((loadLen ls (binAt c idx) : ℤ) + 1 ≤ ml) := he
        have hidx' : (if idx + 1 ≥ c.sortedSet.length then 0 else idx + 1)
            < c.sortedSet.length := by
          split
          · omega
          · omega
        have hmodidx' : (if idx + 1 ≥ c.sortedSet.length then 0 else idx + 1)
            = (idx + 1) % c.sortedSet.length := by
          split
          · rename_i h1
            have : idx + 1 = c.sortedSet.length := by omega
            rw [this, Nat.mod_self]
          · rename_i h1
            rw [Nat.mod_eq_of_lt (by omega)]
        have harg : ∀ j, ((if idx + 1 ≥ c.sortedSet.length then 0 else idx + 1) + j)
              % c.sortedSet.length = (idx + (j + 1)) % c.sortedSet.length := by
          intro j
          rw [hmodidx', Nat.mod_add_mod]
          congr 1
          omega
        obtain ⟨ihIff, ihSucc⟩ := ih (f + 1) (by omega)
          (if idx + 1 ≥ c.sortedSet.length then 0 else idx + 1) ps ls hidx'
        constructor
        · constructor
          · intro herr
            rw [hstep, if_neg he'] at herr
            have hall := ihIff.mp herr
            intro j hj
            match j with
            | 0 =>
              rw [hzero]
              exact he
            | j₁ + 1 =>
              have := hall j₁ (by omega)
              rw [harg j₁] at this
              exact this
          · intro hall
            rw [hstep, if_neg he']
            apply ihIff.mpr
            intro j hj
            rw [harg j]
            exact hall (j + 1) (by omega)
        · intro j₀ hj₀ helig hmin
          match j₀ with
          | 0 =>
            rw [hzero] at helig
            exact absurd helig he
          | j₁ + 1 =>
            rw [hstep, if_neg he']
            have hres := ihSucc j₁ (by omega) ?_ ?_
            · rw [harg j₁] at hres
              exact hres
            · rw [harg j₁]
              exact helig
            · intro j hj
              rw [harg j]
              exact hmin (j + 1) (by omega)

/-- C3 as stated is false.  With a single ring position (one bin,
replication factor 1, one partition, load-balancing parameter 1) the single
position holds an eligible bin — load 0 is strictly below MaximumLoad 1, so
a full traversal of all ring positions finds an eligible bin — yet the pass
fails with `ErrInsufficientPartitionCapacity`: the Go counter starts at 1
and aborts when `count >= len(sortedSet)`, so only `len(sortedSet) - 1`
positions are ever examined. -/
theorem C3_counterexample :
    c3.sortedSet.length = 1 ∧
    eligible c3 (MaximumLoadZ c3) (loadsInit c3) 0 ∧
    distributeTables c3 = .error .ErrInsufficientPartitionCapacity := by
  refine ⟨by decide, by decide, by decide⟩

/-- C3 amended: for each partition, the walk starting at index `idx` (the
wrapped `sort.Search` successor of the partition's anchor hash, the index
`distributePartitions` passes in) assigns the partition to the first bin of
the walk whose load is strictly below MaximumLoad, but only the first
`len(sortedSet) - 1` walked positions are examined: the walk fails with
`ErrInsufficientPartitionCapacity` exactly when none of those
`len(sortedSet) - 1` positions holds such a bin (not "a full traversal"). -/
theorem C3_walk_amended (c : Consistent) (pid : Nat) (idx : Nat)
    (hbins : c.bins ≠ []) (hidx : idx < c.sortedSet.length)
    (ps : List (Nat × Bin)) (ls : List (String × List Nat)) :
    (distributeWithLoad c (MaximumLoadZ c) pid c.sortedSet.length idx ps ls
        = .error .ErrInsufficientPartitionCapacity
      ↔ ∀ j, j + 1 < c.sortedSet.length →
          ¬eligible c (MaximumLoadZ c) ls ((idx + j) % c.sortedSet.length)) ∧
    (∀ j₀, j₀ + 1 < c.sortedSet.length →
      eligible c (MaximumLoadZ c) ls ((idx + j₀) % c.sortedSet.length) →
      (∀ j < j₀, ¬eligible c (MaximumLoadZ c) ls ((idx + j) % c.sortedSet.length)) →
      distributeWithLoad c (MaximumLoadZ c) pid c.sortedSet.length idx ps ls
        = .ok (amInsert pid (binAt c ((idx + j₀) % c.sortedSet.length)) ps,
               amAppend (binAt c ((idx + j₀) % c.sortedSet.length)).name pid ls)) :=
  distributeWithLoad_char c (MaximumLoadZ c) pid c.sortedSet.length idx ps ls hidx

/-- Witness for C3 amended: a two-position ring where the first walked
position is eligible and receives the partition. -/
theorem C3_walk_amended_witness :
    c7.bins ≠ [] ∧ (0 : Nat) < c7.sortedSet.length ∧
    (0 : Nat) + 1 < c7.sortedSet.length ∧
    eligible c7 (MaximumLoadZ c7) (loadsInit c7) ((0 + 0) % c7.sortedSet.length) ∧
    distributeWithLoad c7 (MaximumLoadZ c7) 0 c7.sortedSet.length 0 [] (loadsInit c7)
      = .ok (amInsert 0 (binAt c7 ((0 + 0) % c7.sortedSet.length)) [],
             amAppend (binAt c7 ((0 + 0) % c7.sortedSet.length)).name 0 (loadsInit c7)) := by
  refine ⟨by decide, by decide, by decide, by decide, ?_⟩
  exact (C3_walk_amended c7 0 0 (by decide) (by decide) [] (loadsInit c7)).2
    0 (by decide) (by decide) (fun j hj => absurd hj (by omega))

/-! ### Claim C8 -/

/-- C8 as stated is false for a deterministic but colliding hasher: with the
constant hasher, adding "a" then "b" and adding "b" then "a" are both
successful Add sequences over the same bin set, yet they produce different
partition tables (the ring entry at the shared position is overwritten by
whichever bin was added last). -/
theorem C8_counterexample :
    ((initC cfgC8).Add (NewBin "a")).2 = none ∧
    (((initC cfgC8).Add (NewBin "a")).1.Add (NewBin "b")).2 = none ∧
    ((initC cfgC8).Add (NewBin "b")).2 = none ∧
    (((initC cfgC8).Add (NewBin "b")).1.Add (NewBin "a")).2 = none ∧
    amLookup 0 ((((initC cfgC8).Add (NewBin "a")).1.Add (NewBin "b")).1.partitions)
      = some (NewBin "b") ∧
    amLookup 0 ((((initC cfgC8).Add (NewBin "b")).1.Add (NewBin "a")).1.partitions)
      = some (NewBin "a") := by
  refine ⟨by decide, by decide, by decide, by decide, by decide, by decide⟩

theorem amLookup_amAppend (k' k : String) (v : Nat) (l : List (String × List Nat)) :
    amLookup k' (amAppend k v l)
      = if k' = k then some (((amLookup k l).getD []) ++ [v]) else amLookup k' l := by
  by_cases h : k' = k
  · subst h
    rw [if_pos rfl, amAppend, amLookup_amInsert_self]
  · rw [if_neg h, amAppend, amLookup_amInsert_ne _ _ h]

theorem loadsExt_amAppend (k : String) (v : Nat) {l₁ l₂ : List (String × List Nat)}
    (h : loadsExt l₁ l₂) : loadsExt (amAppend k v l₁) (amAppend k v l₂) := by
  intro k'
  rw [amLookup_amAppend, amLookup_amAppend, h k, h k']

/-- The walk only reads the sorted set, the ring (through lookups) and the
load table (through lookups): states agreeing on those produce related
results on extensionally equal load tables. -/
theorem distributeWithLoad_congr (c₁ c₂ : Consistent) (ml : ℤ) (pid : Nat)
    (hss : c₁.sortedSet = c₂.sortedSet)
    (hring : ∀ k, amLookup k c₁.ring = amLookup k c₂.ring) :
    ∀ fuel idx ps ls₁ ls₂, loadsExt ls₁ ls₂ →
      distRel (distributeWithLoad c₁ ml pid fuel idx ps ls₁)
              (distributeWithLoad c₂ ml pid fuel idx ps ls₂) := by
  intro fuel
  induction fuel using Nat.strong_induction_on with
  | _ fuel ih =>
    intro idx ps ls₁ ls₂ hl
    match fuel with
    | 0 => exact rfl
    | 1 => exact rfl
    | f + 2 =>
      have hstep₁ : distributeWithLoad c₁ ml pid (f + 2) idx ps ls₁
          = if (loadLen ls₁ (binAt c₁ idx) : ℤ) + 1 ≤ ml then
              .ok (amInsert pid (binAt c₁ idx) ps, amAppend (binAt c₁ idx).name pid ls₁)
            else
              distributeWithLoad c₁ ml pid (f + 1)
                (if idx + 1 ≥ c₁.sortedSet.length then 0 else idx + 1) ps ls₁ := rfl
      have hstep₂ : distributeWithLoad c₂ ml pid (f + 2) idx ps ls₂
          = if (loadLen ls₂ (binAt c₂ idx) : ℤ) + 1 ≤ ml then
              .ok (amInsert pid (binAt c₂ idx) ps, amAppend (binAt c₂ idx).name pid ls₂)
            else
              distributeWithLoad c₂ ml pid (f + 1)
                (if idx + 1 ≥ c₂.sortedSet.length then 0 else idx + 1) ps ls₂ := rfl
      have hbin : binAt c₁ idx = binAt c₂ idx := by
        rw [binAt, binAt, hss, hring]
      have hload : loadLen ls₁ (binAt c₁ idx) = loadLen ls₂ (binAt c₂ idx) := by
        rw [hbin, loadLen, loadLen, hl]
      rw [hstep₁, hstep₂, hload, hbin, hss]
      by_cases hg : (loadLen ls₂ (binAt c₂ idx) : ℤ) + 1 ≤ ml
      · rw [if_pos hg, if_pos hg]
        exact ⟨rfl, loadsExt_amAppend _ _ hl⟩
      · rw [if_neg hg, if_neg hg]
        exact ih (f + 1) (by omega) _ _ _ _ hl

/-- The per-partition loop likewise only reads the hasher, the sorted set,
the ring lookups and the load-table lookups. -/
theorem distLoop_congr (c₁ c₂ : Consistent) (ml : ℤ)
    (hh : c₁.hasher = c₂.hasher) (hss : c₁.sortedSet = c₂.sortedSet)
    (hring : ∀ k, amLookup k c₁.ring = amLookup k c₂.ring) :
    ∀ r pid ps ls₁ ls₂, loadsExt ls₁ ls₂ →
      distRel (distLoop c₁ ml pid r ps ls₁) (distLoop c₂ ml pid r ps ls₂) := by
  intro r
  induction r with
  | zero =>
    intro pid ps ls₁ ls₂ hl
    exact ⟨rfl, hl⟩
  | succ r ih =>
    intro pid ps ls₁ ls₂ hl
    simp only [distLoop]
    rw [hss, hh]
    generalize (if List.findIdx (fun x => decide (c₂.hasher (le8 pid) ≤ x)) c₂.sortedSet
          ≥ c₂.sortedSet.length then 0
        else List.findIdx (fun x => decide (c₂.hasher (le8 pid) ≤ x)) c₂.sortedSet) = idx
    have hd := distributeWithLoad_congr c₁ c₂ ml pid hss hring
      c₂.sortedSet.length idx ps ls₁ ls₂ hl
    split
    · rename_i e₁ h₁
      rw [h₁] at hd
      split
      · rename_i e₂ h₂
        rw [h₂] at hd
        exact hd
      · rename_i P₂ L₂ h₂
        rw [h₂] at hd
        exact hd.elim
    · rename_i P₁ L₁ h₁
      rw [h₁] at hd
      split
      · rename_i e₂ h₂
        rw [h₂] at hd
        exact hd.elim
      · rename_i P₂ L₂ h₂
        rw [h₂] at hd
        obtain ⟨hp, hlx⟩ := hd
        subst hp
        exact ih _ _ _ _ hlx

/-- Anatomy of a successful `Add`. -/
theorem Add_ok (c : Consistent) (b : Bin) (c' : Consistent) (h : c.Add b = (c', none)) :
    amLookup b.name c.bins = none ∧
    ∃ pl, distributeTables (c.add b) = .ok pl ∧
      c' = { c.add b with partitions := pl.1, loads := pl.2 } := by
  by_cases hb : (amLookup b.name c.bins).isSome
  · have hAdd : c.Add b = (c, some .ErrBinAlreadyExist) := by
      unfold Consistent.Add
      rw [if_pos hb]
    rw [hAdd] at h
    injection h with h1 h2
    cases h2
  · have hnone : amLookup b.name c.bins = none := Option.not_isSome_iff_eq_none.mp hb
    rcases hd : distributeTables (c.add b) with e | pl
    · have hAdd : c.Add b = (c.add b, some e) := by
        unfold Consistent.Add
        rw [if_neg hb]
        simp only [hd]
      rw [hAdd] at h
      injection h with h1 h2
      cases h2
    · obtain ⟨p, l⟩ := pl
      have hAdd : c.Add b = (relocate { c.add b with partitions := p, loads := l }, none) := by
        unfold Consistent.Add
        rw [if_neg hb]
        simp only [hd]
      rw [hAdd] at h
      injection h with h1 h2
      exact ⟨hnone, (p, l), rfl, h1.symm⟩

/-- Storing a fresh key grows a Go map by exactly one entry. -/
theorem amInsert_length_of_lookup_none {K V : Type} [DecidableEq K] (k : K) (v : V) :
    ∀ l : List (K × V), amLookup k l = none → (amInsert k v l).length = l.length + 1
  | [], _ => rfl
  | (k₂, v₂) :: t, h => by
    rw [amLookup] at h
    split at h
    · cases h
    · rename_i hk
      rw [amInsert, if_neg hk, List.length_cons, List.length_cons,
        amInsert_length_of_lookup_none k v t h]

/-- A successful `Add` sequence inserts pairwise distinct names, all absent
from the starting bin table. -/
theorem addAll_names : ∀ (bs : List Bin) (c c' : Consistent), addAll c bs = some c' →
    (∀ b ∈ bs, amLookup b.name c.bins = none) ∧ (bs.map Bin.name).Nodup
  | [], _, _, _ => ⟨fun b hb => absurd hb (List.not_mem_nil b), by simp⟩
  | b :: t, c, c', h => by
    rw [addAll] at h
    split at h
    · rename_i c₁ hAdd
      obtain ⟨hnone, pl, hd, hc₁⟩ := Add_ok c b c₁ hAdd
      have hbins₁ : c₁.bins = amInsert b.name b c.bins := by
        rw [hc₁]
        rfl
      have ih := addAll_names t c₁ c' h
      have habsent : ∀ b' ∈ t, b'.name ≠ b.name ∧ amLookup b'.name c.bins = none := by
        intro b' hb'
        have hlk := ih.1 b' hb'
        rw [hbins₁] at hlk
        by_cases hbn : b'.name = b.name
        · rw [hbn, amLookup_amInsert_self] at hlk
          cases hlk
        · rw [amLookup_amInsert_ne _ _ hbn] at hlk
          exact ⟨hbn, hlk⟩
      constructor
      · intro b' hb'
        rcases List.mem_cons.mp hb' with hb' | hb'
        · subst hb'
          exact hnone
        · exact (habsent b' hb').2
      · rw [List.map_cons]
        refine List.nodup_cons.mpr ⟨?_, ih.2⟩
        intro hmem
        obtain ⟨b', hb', hbn⟩ := List.mem_map.mp hmem
        exact (habsent b' hb').1 hbn
    · cases h

theorem add_ring (c : Consistent) (b : Bin) :
    (c.add b).ring = (binPairs c.replicationFactor c.hasher b).foldl
      (fun r p => amInsert p.1 p.2 r) c.ring := by
  simp [Consistent.add, binPairs, List.foldl_map]

theorem binPairs_map_fst (rf : Int) (hh : Hasher) (b : Bin) :
    (binPairs rf hh b).map Prod.fst
      = (List.range rf.toNat).map fun i => hh (addLabel i b.name) := by
  simp [binPairs, List.map_map, Function.comp]

theorem add_sortedSet_perm (c : Consistent) (b : Bin) :
    (c.add b).sortedSet.Perm
      (c.sortedSet ++ (binPairs c.replicationFactor c.hasher b).map Prod.fst) := by
  rw [binPairs_map_fst]
  exact List.perm_insertionSort _ _

theorem add_sorted (c : Consistent) (b : Bin) :
    List.Sorted (· ≤ ·) (c.add b).sortedSet :=
  List.sorted_insertionSort _ _

/-- The state built by a successful `Add` sequence, in terms of the
inserted position/bin pairs. -/
theorem addAll_state : ∀ (bs : List Bin) (c c' : Consistent), addAll c bs = some c' →
    List.Sorted (· ≤ ·) c.sortedSet →
    c'.hasher = c.hasher ∧ c'.partition = c.partition ∧
    c'.replicationFactor = c.replicationFactor ∧
    c'.loadBalancingParameter = c.loadBalancingParameter ∧
    c'.balls = c.balls ∧
    c'.ring = (allPairs c.replicationFactor c.hasher bs).foldl
      (fun r p => amInsert p.1 p.2 r) c.ring ∧
    c'.sortedSet.Perm
      (c.sortedSet ++ (allPairs c.replicationFactor c.hasher bs).map Prod.fst) ∧
    List.Sorted (· ≤ ·) c'.sortedSet ∧
    c'.bins = bs.foldl (fun m b => amInsert b.name b m) c.bins ∧
    c'.bins.length = c.bins.length + bs.length
  | [], c, c', h, hs => by
    rw [addAll] at h
    injection h with h'
    subst h'
    refine ⟨rfl, rfl, rfl, rfl, rfl, rfl, ?_, hs, rfl, rfl⟩
    simp [allPairs]
  | b :: t, c, c', h, hs => by
    rw [addAll] at h
    split at h
    · rename_i c₁ hAdd
      obtain ⟨hnone, pl, hd, hc₁⟩ := Add_ok c b c₁ hAdd
      have hsorted₁ : List.Sorted (· ≤ ·) c₁.sortedSet := by
        rw [hc₁]
        exact add_sorted c b
      have ih := addAll_state t c₁ c' h hsorted₁
      have hfields : c₁.hasher = c.hasher ∧ c₁.partition = c.partition ∧
          c₁.replicationFactor = c.replicationFactor ∧
          c₁.loadBalancingParameter = c.loadBalancingParameter ∧
          c₁.balls = c.balls := by
        rw [hc₁]
        exact ⟨rfl, rfl, rfl, rfl, rfl⟩
      have hring₁ : c₁.ring = (binPairs c.replicationFactor c.hasher b).foldl
          (fun r p => amInsert p.1 p.2 r) c.ring := by
        rw [hc₁]
        exact add_ring c b
      have hss₁ : c₁.sortedSet.Perm
          (c.sortedSet ++ (binPairs c.replicationFactor c.hasher b).map Prod.fst) := by
        rw [hc₁]
        exact add_sortedSet_perm c b
      have hbins₁ : c₁.bins = amInsert b.name b c.bins := by
        rw [hc₁]
        rfl
      have hsplit : allPairs c.replicationFactor c.hasher (b :: t)
          = binPairs c.replicationFactor c.hasher b ++ allPairs c.replicationFactor c.hasher t := by
        simp [allPairs]
      obtain ⟨ihh, ihp, ihrf, ihα, ihballs, ihring, ihss, ihsorted, ihbins, ihlen⟩ := ih
      refine ⟨ihh.trans hfields.1, ihp.trans hfields.2.1, ihrf.trans hfields.2.2.1,
        ihα.trans hfields.2.2.2.1, ihballs.trans hfields.2.2.2.2, ?_, ?_, ihsorted, ?_, ?_⟩
      · rw [ihring, hfields.1, hfields.2.2.1, hring₁, hsplit, List.foldl_append]
      · rw [hfields.1, hfields.2.2.1] at ihss
        refine ihss.trans ?_
        refine (hss₁.append_right _).trans ?_
        rw [hsplit, List.append_assoc, List.map_append]
      · rw [ihbins, hbins₁, List.foldl_cons]
      · rw [ihlen, hbins₁, amInsert_length_of_lookup_none _ _ _ hnone, List.length_cons]
        omega
    · cases h

/-- Folding Go map stores over a pair list: the last store wins, earlier
content survives otherwise. -/
theorem amLookup_foldl_amInsert {K V : Type} [DecidableEq K] :
    ∀ (pairs : List (K × V)) (r0 : List (K × V)) (k : K),
    amLookup k (pairs.foldl (fun r p => amInsert p.1 p.2 r) r0)
      = ((pairs.reverse.find? fun p => decide (p.1 = k)).map Prod.snd).or (amLookup k r0)
  | [], r0, k => by
    rw [List.foldl_nil, List.reverse_nil, List.find?_nil]
    rfl
  | p :: t, r0, k => by
    rw [List.foldl_cons, amLookup_foldl_amInsert t _ k, List.reverse_cons, List.find?_append]
    cases hf : t.reverse.find? fun q => decide (q.1 = k) with
    | none =>
      simp only [hf, Option.map_none', Option.none_or]
      by_cases hp : p.1 = k
      · have hone : List.find? (fun q => decide (q.1 = k)) [p] = some p := by
          simp [List.find?_cons, List.find?_nil, hp]
        rw [hone]
        simp only [Option.map_some', Option.or_some]
        rw [← hp, amLookup_amInsert_self]
      · have hone : List.find? (fun q => decide (q.1 = k)) [p] = none := by
          simp [List.find?_cons, List.find?_nil, hp]
        rw [hone]
        simp only [Option.map_none', Option.none_or]
        exact amLookup_amInsert_ne _ _ (fun hk => hp hk.symm)
    | some q =>
      simp only [hf, Option.map_some', Option.or_some]

/-- A `find?` over permuted lists agrees when at most one element matches. -/
theorem find?_eq_of_perm_unique {α : Type} (l₁ l₂ : List α) (pr : α → Bool)
    (hperm : l₁.Perm l₂)
    (huniq : ∀ a ∈ l₁, ∀ b ∈ l₁, pr a → pr b → a = b) :
    l₁.find? pr = l₂.find? pr := by
  rcases h₁ : l₁.find? pr with _ | a
  · rcases h₂ : l₂.find? pr with _ | a
    · rfl
    · have ha := List.find?_some h₂
      have hmem : a ∈ l₁ := hperm.symm.subset (List.mem_of_find?_eq_some h₂)
      rw [List.find?_eq_none] at h₁
      exact absurd ha (by simpa using h₁ a hmem)
  · have ha := List.find?_some h₁
    have hmem := List.mem_of_find?_eq_some h₁
    rcases h₂ : l₂.find? pr with _ | b
    · rw [List.find?_eq_none] at h₂
      have : a ∈ l₂ := hperm.subset hmem
      exact absurd ha (by simpa using h₂ a this)
    · have hb := List.find?_some h₂
      have hbmem : b ∈ l₁ := hperm.symm.subset (List.mem_of_find?_eq_some h₂)
      rw [huniq a hmem b hbmem ha hb]

/-- Membership in the inserted pair list. -/
theorem mem_allPairs {rf : Int} {hh : Hasher} {bs : List Bin} {p : Nat × Bin} :
    p ∈ allPairs rf hh bs ↔ ∃ b ∈ bs, ∃ i, i < rf.toNat ∧ p = (hh (addLabel i b.name), b) := by
  constructor
  · intro hp
    rw [allPairs, List.mem_flatten] at hp
    obtain ⟨l, hl, hpl⟩ := hp
    obtain ⟨b, hb, hbl⟩ := List.mem_map.mp hl
    subst hbl
    obtain ⟨i, hi, hip⟩ := List.mem_map.mp hpl
    exact ⟨b, hb, i, List.mem_range.mp hi, hip.symm⟩
  · rintro ⟨b, hb, i, hi, rfl⟩
    rw [allPairs, List.mem_flatten]
    refine ⟨binPairs rf hh b, List.mem_map.mpr ⟨b, hb, rfl⟩, ?_⟩
    exact List.mem_map.mpr ⟨i, List.mem_range.mpr hi, rfl⟩

/-- Mapping the values of a Go map commutes with lookup. -/
theorem amLookup_map_pair {K V W : Type} [DecidableEq K] (f : V → W) (k : K) :
    ∀ l : List (K × V), amLookup k (l.map fun p => (p.1, f p.2)) = (amLookup k l).map f
  | [] => rfl
  | (k₂, v₂) :: t => by
    by_cases hk : k = k₂ <;> simp [amLookup, hk, amLookup_map_pair f k t]

/-- With pairwise distinct ring positions, the ring built from a bin set
does not depend on the insertion order (as a map). -/
theorem amLookup_allPairs_perm (rf : Int) (hh : Hasher) (bs₁ bs₂ : List Bin)
    (hperm : bs₁.Perm bs₂) (hinj : DistinctPositions rf hh bs₁) (k : Nat) :
    amLookup k ((allPairs rf hh bs₁).foldl (fun r p => amInsert p.1 p.2 r) [])
      = amLookup k ((allPairs rf hh bs₂).foldl (fun r p => amInsert p.1 p.2 r) []) := by
  rw [amLookup_foldl_amInsert, amLookup_foldl_amInsert]
  have hpairs : (allPairs rf hh bs₁).Perm (allPairs rf hh bs₂) := (hperm.map _).flatten
  have hrev : (allPairs rf hh bs₁).reverse.Perm (allPairs rf hh bs₂).reverse :=
    ((List.reverse_perm _).trans hpairs).trans (List.reverse_perm _).symm
  have hu : ∀ a ∈ (allPairs rf hh bs₁).reverse, ∀ b ∈ (allPairs rf hh bs₁).reverse,
      (fun p => decide (p.1 = k)) a → (fun p => decide (p.1 = k)) b → a = b := by
    intro a ha b hb hpa hpb
    rw [List.mem_reverse] at ha hb
    obtain ⟨b₁, hb₁, i₁, hi₁, ha'⟩ := mem_allPairs.mp ha
    obtain ⟨b₂, hb₂, i₂, hi₂, hb'⟩ := mem_allPairs.mp hb
    subst ha'
    subst hb'
    have hak : hh (addLabel i₁ b₁.name) = k := by simpa using of_decide_eq_true hpa
    have hbk : hh (addLabel i₂ b₂.name) = k := by simpa using of_decide_eq_true hpb
    obtain ⟨hi, hbeq⟩ := hinj b₁ hb₁ b₂ hb₂ i₁ hi₁ i₂ hi₂ (hak.trans hbk.symm)
    rw [hi, hbeq]
  rw [find?_eq_of_perm_unique _ _ _ hrev hu]

/-- With pairwise distinct names, the bin registry built from a bin set
does not depend on the insertion order (as a map). -/
theorem amLookup_binsFold_perm (bs₁ bs₂ : List Bin)
    (hperm : bs₁.Perm bs₂) (hnodup : (bs₁.map Bin.name).Nodup) (k : String) :
    amLookup k (bs₁.foldl (fun m b => amInsert b.name b m) [])
      = amLookup k (bs₂.foldl (fun m b => amInsert b.name b m) []) := by
  have hf : ∀ bs : List Bin,
      bs.foldl (fun m b => amInsert b.name b m) ([] : List (String × Bin))
        = ((bs.map fun b => (b.name, b)).foldl (fun r p => amInsert p.1 p.2 r) []) := by
    intro bs
    rw [List.foldl_map]
  rw [hf, hf, amLookup_foldl_amInsert, amLookup_foldl_amInsert]
  have hpairs : ((bs₁.map fun b => (b.name, b))).Perm (bs₂.map fun b => (b.name, b)) :=
    hperm.map _
  have hrev := ((List.reverse_perm _).trans hpairs).trans (List.reverse_perm _).symm
  have hu : ∀ a ∈ (bs₁.map fun b => (b.name, b)).reverse,
      ∀ b ∈ (bs₁.map fun b => (b.name, b)).reverse,
      (fun p => decide (p.1 = k)) a → (fun p => decide (p.1 = k)) b → a = b := by
    intro a ha b hb hpa hpb
    rw [List.mem_reverse] at ha hb
    obtain ⟨ba, hba, ha'⟩ := List.mem_map.mp ha
    obtain ⟨bb, hbb, hb'⟩ := List.mem_map.mp hb
    subst ha'
    subst hb'
    have h1 : ba.name = k := by simpa using of_decide_eq_true hpa
    have h2 : bb.name = k := by simpa using of_decide_eq_true hpb
    have hba' : ba = bb := List.inj_on_of_nodup_map hnodup hba hbb (h1.trans h2.symm)
    rw [hba']
  rw [find?_eq_of_perm_unique _ _ _ hrev hu]

/-- Literal version of `distributeWithLoad_congr`: states agreeing on the
sorted set and ring lookups run the walk identically. -/
theorem distributeWithLoad_congr_lit (c₁ c₂ : Consistent) (ml : ℤ) (pid : Nat)
    (hss : c₁.sortedSet = c₂.sortedSet)
    (hring : ∀ k, amLookup k c₁.ring = amLookup k c₂.ring) :
    ∀ fuel idx ps ls,
      distributeWithLoad c₁ ml pid fuel idx ps ls
        = distributeWithLoad c₂ ml pid fuel idx ps ls := by
  intro fuel
  induction fuel using Nat.strong_induction_on with
  | _ fuel ih =>
    intro idx ps ls
    match fuel with
    | 0 => rfl
    | 1 => rfl
    | f + 2 =>
      have hstep₁ : distributeWithLoad c₁ ml pid (f + 2) idx ps ls
          = if (loadLen ls (binAt c₁ idx) : ℤ) + 1 ≤ ml then
              .ok (amInsert pid (binAt c₁ idx) ps, amAppend (binAt c₁ idx).name pid ls)
            else
              distributeWithLoad c₁ ml pid (f + 1)
                (if idx + 1 ≥ c₁.sortedSet.length then 0 else idx + 1) ps ls := rfl
      have hstep₂ : distributeWithLoad c₂ ml pid (f + 2) idx ps ls
          = if (loadLen ls (binAt c₂ idx) : ℤ) + 1 ≤ ml then
              .ok (amInsert pid (binAt c₂ idx) ps, amAppend (binAt c₂ idx).name pid ls)
            else
              distributeWithLoad c₂ ml pid (f + 1)
                (if idx + 1 ≥ c₂.sortedSet.length then 0 else idx + 1) ps ls := rfl
      have hbin : binAt c₁ idx = binAt c₂ idx := by
        rw [binAt, binAt, hss, hring]
      rw [hstep₁, hstep₂, hbin, hss, ih (f + 1) (by omega)]

/-- Literal version of `distLoop_congr`. -/
theorem distLoop_congr_lit (c₁ c₂ : Consistent) (ml : ℤ)
    (hh : c₁.hasher = c₂.hasher) (hss : c₁.sortedSet = c₂.sortedSet)
    (hring : ∀ k, amLookup k c₁.ring = amLookup k c₂.ring) :
    ∀ r pid ps ls, distLoop c₁ ml pid r ps ls = distLoop c₂ ml pid r ps ls := by
  intro r
  induction r with
  | zero => intro pid ps ls; rfl
  | succ r ih =>
    intro pid ps ls
    simp only [distLoop]
    rw [hss, hh, distributeWithLoad_congr_lit c₁ c₂ ml pid hss hring]
    split
    · rfl
    · exact ih _ _ _

/-- After a nonempty successful `Add` sequence, the installed tables are the
fixed point of the distribution pass on the final state. -/
theorem addAll_tables : ∀ (bs : List Bin) (c c' : Consistent), addAll c bs = some c' →
    bs ≠ [] → distributeTables c' = .ok (c'.partitions, c'.loads)
  | [], _, _, _, hne => absurd rfl hne
  | b :: t, c, c', h, _ => by
    rw [addAll] at h
    split at h
    · rename_i c₁ hAdd
      rcases ht : t with _ | ⟨b', t'⟩
      · subst ht
        rw [addAll] at h
        injection h with h'
        subst h'
        obtain ⟨hnone, pl, hd, hc₁⟩ := Add_ok c b c₁ hAdd
        subst hc₁
        have hlit := distLoop_congr_lit
          { c.add b with partitions := pl.1, loads := pl.2 } (c.add b)
          (MaximumLoadZ (c.add b)) rfl rfl (fun k => rfl)
          (c.add b).partition 0 [] (loadsInit (c.add b))
        rw [distributeTables] at hd
        show distLoop { c.add b with partitions := pl.1, loads := pl.2 }
            (MaximumLoadZ (c.add b)) 0 (c.add b).partition [] (loadsInit (c.add b))
          = .ok (pl.1, pl.2)
        rw [hlit, hd]
      · exact addAll_tables t c₁ c' h (by rw [ht]; exact List.cons_ne_nil b' t')
    · cases h

/-- C8 amended: for a fixed configuration and a deterministic hasher whose
generated ring positions are pairwise distinct for the inserted bins (no
ring collisions — the counterexample shows the claim fails otherwise), any
two successful `Add` sequences over the same set of bins (in any order)
starting from `New(cfg, nil)` produce identical partition tables and
identical (as maps) load tables. -/
theorem C8_order_independent (cfg : Config) (bs₁ bs₂ : List Bin) (c₁ c₂ : Consistent)
    (hperm : bs₁.Perm bs₂)
    (hinj : DistinctPositions cfg.replicationFactor cfg.hasher bs₁)
    (h₁ : addAll (initC cfg) bs₁ = some c₁)
    (h₂ : addAll (initC cfg) bs₂ = some c₂) :
    c₁.partitions = c₂.partitions ∧ loadsExt c₁.loads c₂.loads := by
  cases bs₁ with
  | nil =>
    have hbs₂ : bs₂ = [] := hperm.symm.eq_nil
    subst hbs₂
    rw [addAll] at h₁ h₂
    injection h₁ with h₁'
    injection h₂ with h₂'
    subst h₁'
    subst h₂'
    exact ⟨rfl, fun k => rfl⟩
  | cons b0 t0 =>
    have hne₁ : (b0 :: t0 : List Bin) ≠ [] := List.cons_ne_nil _ _
    have hne₂ : bs₂ ≠ [] := by
      intro hnil
      subst hnil
      exact absurd hperm.eq_nil (by simp)
    have hsorted0 : List.Sorted (· ≤ ·) (initC cfg).sortedSet := List.sorted_nil
    obtain ⟨hh₁, hp₁, hrf₁, hα₁, hballs₁, hring₁, hss₁, hsrt₁, hbins₁, hlen₁⟩ :=
      addAll_state _ _ _ h₁ hsorted0
    obtain ⟨hh₂, hp₂, hrf₂, hα₂, hballs₂, hring₂, hss₂, hsrt₂, hbins₂, hlen₂⟩ :=
      addAll_state _ _ _ h₂ hsorted0
    obtain ⟨habs₁, hnd₁⟩ := addAll_names _ _ _ h₁
    have hpairsPerm : (allPairs cfg.replicationFactor cfg.hasher (b0 :: t0)).Perm
        (allPairs cfg.replicationFactor cfg.hasher bs₂) :=
      (hperm.map _).flatten
    have hssEq : c₁.sortedSet = c₂.sortedSet := by
      refine List.eq_of_perm_of_sorted (hss₁.trans (List.Perm.trans ?_ hss₂.symm)) hsrt₁ hsrt₂
      exact List.Perm.append_left _ (hpairsPerm.map Prod.fst)
    have hringEq : ∀ k, amLookup k c₁.ring = amLookup k c₂.ring := by
      intro k
      rw [hring₁, hring₂]
      exact amLookup_allPairs_perm cfg.replicationFactor cfg.hasher _ _ hperm hinj k
    have hbinsLk : ∀ k, amLookup k c₁.bins = amLookup k c₂.bins := by
      intro k
      rw [hbins₁, hbins₂]
      exact amLookup_binsFold_perm _ _ hperm hnd₁ k
    have hmapInit : ∀ (c : Consistent) (k : String), amLookup k (loadsInit c)
        = (amLookup k c.bins).map fun _ => ([] : List Nat) := by
      intro c k
      exact amLookup_map_pair (fun _ => ([] : List Nat)) k c.bins
    have hloadsInitExt : loadsExt (loadsInit c₁) (loadsInit c₂) := by
      intro k
      rw [hmapInit, hmapInit, hbinsLk k]
    have hlenEq : c₁.bins.length = c₂.bins.length := by
      rw [hlen₁, hlen₂, hperm.length_eq]
    have hmlEq : MaximumLoadZ c₂ = MaximumLoadZ c₁ := by
      rw [MaximumLoadZ, MaximumLoadZ, hp₁, hp₂, hα₁, hα₂, hlenEq]
    have hhEq : c₁.hasher = c₂.hasher := hh₁.trans hh₂.symm
    have hprEq : c₂.partition = c₁.partition := hp₂.trans hp₁.symm
    have tb₁ := addAll_tables _ _ _ h₁ hne₁
    have tb₂ := addAll_tables _ _ _ h₂ hne₂
    rw [distributeTables] at tb₁ tb₂
    rw [hmlEq, hprEq] at tb₂
    have hrel := distLoop_congr c₁ c₂ (MaximumLoadZ c₁) hhEq hssEq hringEq
      c₁.partition 0 [] (loadsInit c₁) (loadsInit c₂) hloadsInitExt
    rw [tb₁, tb₂] at hrel
    exact hrel

/-- Witness for C8: both insertion orders of two collision-free bins
succeed, and the theorem yields identical tables. -/
theorem C8_order_independent_witness :
    ([NewBin "a", NewBin "b"] : List Bin).Perm [NewBin "b", NewBin "a"] ∧
    DistinctPositions cfgT.replicationFactor cfgT.hasher [NewBin "a", NewBin "b"] ∧
    addAll (initC cfgT) [NewBin "a", NewBin "b"] = some cA ∧
    addAll (initC cfgT) [NewBin "b", NewBin "a"] = some cB ∧
    (cA.partitions = cB.partitions ∧ loadsExt cA.loads cB.loads) :=
  ⟨by decide, by decide, rfl, rfl,
    C8_order_independent cfgT [NewBin "a", NewBin "b"] [NewBin "b", NewBin "a"] cA cB
      (by decide) (by decide) rfl rfl⟩

/-- Witness for C7 amended at the concrete last-bin state. -/
theorem C7_amended_witness :
    (amLookup "a" c7.bins).isSome ∧ amErase "a" c7.bins = [] ∧
    (c7.Remove (NewBin "a")).2 = none ∧
    (c7.Remove (NewBin "a")).1.partitions = [] ∧
    (c7.Remove (NewBin "a")).1.loads = c7.loads := by
  have h := C7_amended c7 (NewBin "a") (by decide) (by decide)
  exact ⟨by decide, by decide, h.1, h.2.1, h.2.2⟩
